import Mathlib

/-!
Verification of the two-stage document ingestion pipeline
(src/ingest.py and src/chunk_and_index.py).

The Python code is shallowly embedded: dict records become structures,
loops become folds over explicit state, and the two external-service
call sites that matter to the claims (index creation, the per-page
layout response) are modelled by passing the external outcome or the
page data in as a parameter. Python string length is character count,
modelled by List Char length under String.
-/

namespace RagPipeline

/-- Embeds Python str.strip on the character list of a string:
whitespace is removed from both ends (Char.isWhitespace stands in for
the Python whitespace class). -/
def pyStrip (s : String) : String :=
  ⟨((s.data.dropWhile Char.isWhitespace).reverse.dropWhile Char.isWhitespace).reverse⟩

/-- Embeds Python sep.join(l): empty string on the empty list, else the
first element followed by sep and each later element in turn. -/
def pyJoin (sep : String) (l : List String) : String :=
  match l with
  | [] => ""
  | s :: rest => rest.foldl (fun acc t => acc ++ sep ++ t) s

/-- Content Record produced by the extraction stage and consumed by the
chunker (src/ingest.py, src/chunk_and_index.py). Only the fields the
chunker and the claims read are carried: type, content and page; the
optional confidence / rows / cols metadata of line and table records is
never read by any logic under verification. The field type is renamed
to rtype because type is a Lean keyword. -/
structure Record where
  rtype : String
  content : String
  page : Nat
  deriving Repr, DecidableEq

/-- Chunk emitted by semantic_chunking (src/chunk_and_index.py lines
36-42 and 50-57). The id field (a fresh uuid4 string, external
randomness) is not modelled; content, page, type and doc_name are. -/
structure Chunk where
  content : String
  page : Nat
  rtype : String
  doc_name : String
  deriving Repr, DecidableEq

/-- Builds the dict appended to chunks at src/chunk_and_index.py lines
36-42 (and 50-57): content is the ". "-join of the UNTRIMMED contents
of the accumulated records, page and type come from the first
accumulated record, doc_name is the hardcoded literal "support.pdf".
The source indexes current_chunk[0], which is only ever evaluated on a
non-empty accumulator; headD with a junk default stands in for it. -/
def mkChunk (cur : List Record) : Chunk :=
  ⟨pyJoin ". " (cur.map Record.content),
   (cur.headD ⟨"", "", 0⟩).page,
   (cur.headD ⟨"", "", 0⟩).rtype,
   "support.pdf"⟩

/-- Loop state of semantic_chunking: the emitted chunks, the
accumulator current_chunk and the running counter current_length. -/
structure ChunkState where
  chunks : List Chunk
  current_chunk : List Record
  current_length : Nat
  deriving Repr, DecidableEq

/-- Body of the for loop of semantic_chunking (src/chunk_and_index.py
lines 28-47): strip the content, skip it when the trimmed length is
below 20, close the current chunk when the running length plus the
trimmed length strictly exceeds target_chars and the accumulator is
non-empty, otherwise append to the accumulator. -/
def chunkStep (target_chars : Nat) (st : ChunkState) (item : Record) : ChunkState :=
  let text := pyStrip item.content
  if text.length < 20 then st
  else
    let text_len := text.length
    if target_chars < st.current_length + text_len ∧ st.current_chunk ≠ [] then
      ⟨st.chunks ++ [mkChunk st.current_chunk], [item], text_len⟩
    else
      ⟨st.chunks, st.current_chunk ++ [item], st.current_length + text_len⟩

/-- Embeds semantic_chunking (src/chunk_and_index.py lines 20-60): fold
the loop body over the input from the empty state, then close the final
accumulator when non-empty. The Python default for target_chars is
1000; here the parameter is always explicit. -/
def semantic_chunking (raw_chunks : List Record) (target_chars : Nat) : List Chunk :=
  let st := raw_chunks.foldl (chunkStep target_chars) ⟨[], [], 0⟩
  if st.current_chunk ≠ [] then st.chunks ++ [mkChunk st.current_chunk] else st.chunks

/-- Ghost companion of ChunkState that keeps the record groups instead
of the built chunk dicts, for reasoning about which records end up in
which chunk. -/
structure GroupState where
  groups : List (List Record)
  current : List Record
  current_length : Nat
  deriving Repr, DecidableEq

/-- Ghost companion of chunkStep: identical control flow, but the
closed group keeps its list of records. -/
def groupStep (target_chars : Nat) (st : GroupState) (item : Record) : GroupState :=
  let text := pyStrip item.content
  if text.length < 20 then st
  else
    let text_len := text.length
    if target_chars < st.current_length + text_len ∧ st.current ≠ [] then
      ⟨st.groups ++ [st.current], [item], text_len⟩
    else
      ⟨st.groups, st.current ++ [item], st.current_length + text_len⟩

/-- The contiguous groups of records that semantic_chunking merges into
its output chunks, in order. -/
def chunkGroups (raw_chunks : List Record) (target_chars : Nat) : List (List Record) :=
  let st := raw_chunks.foldl (groupStep target_chars) ⟨[], [], 0⟩
  if st.current ≠ [] then st.groups ++ [st.current] else st.groups

/-- Trimmed length of the content of a record, the quantity the length
filter and the running counter of the chunker use. -/
def trimLen (r : Record) : Nat := (pyStrip r.content).length

/-- Sum of the trimmed lengths of the records of a group: the pre-join
accumulated length of the chunk built from the group. -/
def sumTrim (g : List Record) : Nat := (g.map trimLen).sum

/-- The length filter of the chunker as a Bool predicate: a record is
kept when its trimmed content length is at least 20. -/
def keptB (r : Record) : Bool := decide (20 ≤ trimLen r)

/-- One cell of a layout table in the document-analysis response
(src/ingest.py lines 54-55). -/
structure Cell where
  row_index : Nat
  column_index : Nat
  content : String
  deriving Repr, DecidableEq

/-- One layout table of the document-analysis response
(src/ingest.py lines 51-64). -/
structure Table where
  cells : List Cell
  row_count : Nat
  column_count : Nat
  deriving Repr, DecidableEq

/-- One page of the document-analysis response as analyze_document
reads it (src/ingest.py lines 28-73). An absent or empty optional
collection is the empty list, matching the Python truthiness test
hasattr(page, f) and page.f. -/
structure Page where
  page_number : Nat
  paragraphs : List String
  lines : List String
  tables : List Table
  words : List String
  deriving Repr, DecidableEq

/-- Text of one table cell as built at src/ingest.py line 55. -/
def cellText (cell : Cell) : String :=
  "R" ++ toString cell.row_index ++ "C" ++ toString cell.column_index ++ ": " ++ cell.content

/-- Content of a table record as built at src/ingest.py lines 53-60:
the newline join of the cell texts. -/
def tableContent (table : Table) : String :=
  pyJoin "\n" (table.cells.map cellText)

/-- Records appended for one page by the loop body of analyze_document
(src/ingest.py lines 28-73). The structure mirrors the source exactly:
one if / elif pair for paragraphs else lines, then a SECOND independent
if / elif pair for tables else page-level word concatenation, with the
results appended in that order. -/
def pageRecords (page : Page) : List Record :=
  (if page.paragraphs ≠ [] then
    page.paragraphs.map (fun para => ⟨"paragraph", para, page.page_number⟩)
  else if page.lines ≠ [] then
    page.lines.map (fun line => ⟨"line", line, page.page_number⟩)
  else []) ++
  (if page.tables ≠ [] then
    page.tables.map (fun table => ⟨"table", tableContent table, page.page_number⟩)
  else if page.words ≠ [] then
    [⟨"page_text", pyJoin " " page.words, page.page_number⟩]
  else [])

/-- Embeds the normalization loop of analyze_document (src/ingest.py
lines 25-76): the content list accumulated over the pages in order.
The network call producing the pages is modelled by taking the page
list as the argument. -/
def analyze_document (pages : List Page) : List Record :=
  pages.foldl (fun content page => content ++ pageRecords page) []

/-- Embeds the truncation applied when ingest_file writes its JSON
output (src/ingest.py line 96, json.dump with parsed sliced to its
first 500 items): the list of records actually written to the file. -/
def ingest_file_written (parsed : List Record) : List Record :=
  parsed.take 500

/-- Embeds create_simple_index (src/chunk_and_index.py lines 62-85).
The external create-or-update call is modelled by its outcome, passed
in as an argument: ok when the call returns, error when it raises. The
try/except returns True on the ok path and also True on every except
path (the exception is swallowed and printed as index exists). -/
def create_simple_index (call_outcome : Except String Unit) : Bool :=
  match call_outcome with
  | Except.ok _ => true
  | Except.error _ => true

/-- Coupling between the faithful chunker state and its ghost
group-tracking companion: same accumulator, same counter, and the
emitted chunks are exactly the closed groups passed through mkChunk. -/
def StateRel (cs : ChunkState) (gs : GroupState) : Prop :=
  cs.chunks = gs.groups.map mkChunk ∧ cs.current_chunk = gs.current ∧
    cs.current_length = gs.current_length

/-- Invariant carried through the fold of groupStep over the processed
prefix of the input: the flattening of the closed groups followed by
the open accumulator is exactly the kept records of the prefix in
order; the counter is the sum of trimmed lengths of the accumulator; an
accumulator of two or more records is within the target; all grouped
and accumulated records passed the length filter; closed groups are
non-empty and are singletons or within the target. -/
structure GroupInv (target : Nat) (processed : List Record) (st : GroupState) : Prop where
  join_eq : st.groups.flatten ++ st.current = processed.filter keptB
  len_eq : st.current_length = sumTrim st.current
  cur_small : 2 ≤ st.current.length → st.current_length ≤ target
  cur_kept : ∀ r ∈ st.current, 20 ≤ trimLen r
  groups_ne : ∀ g ∈ st.groups, g ≠ []
  groups_small : ∀ g ∈ st.groups, g.length = 1 ∨ sumTrim g ≤ target
  groups_kept : ∀ g ∈ st.groups, ∀ r ∈ g, 20 ≤ trimLen r

/-- Concrete record with 30 characters of trimmed content, used by the
witnesses. -/
def recA : Record := ⟨"paragraph", "abcdefghijklmnopqrstuvwxyz1234", 1⟩

/-- Concrete record with 40 characters of trimmed content, used by the
witnesses. -/
def recB : Record := ⟨"line", String.mk (List.replicate 40 'b'), 2⟩

/-- Concrete record with 1200 characters of trimmed content, above the
default target of 1000, used by the witnesses. -/
def rec1200 : Record := ⟨"paragraph", String.mk (List.replicate 1200 'a'), 3⟩

/-- Concrete page that has paragraphs and words but no lines and no
tables, used by the witnesses. -/
def pageBoth : Page := ⟨1, ["This paragraph content is long enough."], [], [], ["hello", "world"]⟩

/-- Stripping never lengthens a string: the trimmed length is at most
the raw length. -/
theorem pyStrip_length_le (s : String) : (pyStrip s).length ≤ s.length := by
  show (((s.data.dropWhile Char.isWhitespace).reverse.dropWhile Char.isWhitespace).reverse).length
      ≤ s.data.length
  rw [List.length_reverse]
  calc ((s.data.dropWhile Char.isWhitespace).reverse.dropWhile Char.isWhitespace).length
      ≤ (s.data.dropWhile Char.isWhitespace).reverse.length :=
        (List.dropWhile_sublist _).length_le
    _ = (s.data.dropWhile Char.isWhitespace).length := List.length_reverse _
    _ ≤ s.data.length := (List.dropWhile_sublist _).length_le

/-- Stripping a constant run of a non-whitespace character leaves it
unchanged. -/
theorem pyStrip_replicate (n : Nat) (c : Char) (h : c.isWhitespace = false) :
    pyStrip ⟨List.replicate n c⟩ = ⟨List.replicate n c⟩ := by
  have hdrop : ∀ m : Nat, (List.replicate m c).dropWhile Char.isWhitespace
      = List.replicate m c := by
    intro m
    cases m with
    | zero => simp
    | succ k => simp [List.replicate_succ, List.dropWhile_cons, h]
  show (⟨(((List.replicate n c).dropWhile Char.isWhitespace).reverse.dropWhile
      Char.isWhitespace).reverse⟩ : String) = ⟨List.replicate n c⟩
  rw [hdrop n, List.reverse_replicate, hdrop n, List.reverse_replicate]

/-- The trimmed length of the concrete 1200-character record is
1200. -/
theorem trimLen_rec1200 : trimLen rec1200 = 1200 := by
  show (pyStrip ⟨List.replicate 1200 'a'⟩).length = 1200
  rw [pyStrip_replicate 1200 'a' (by decide)]
  show (List.replicate 1200 'a').length = 1200
  rw [List.length_replicate]

/-- The single oversize record forms the single group on its own. -/
theorem chunkGroups_rec1200 : chunkGroups [rec1200] 1000 = [[rec1200]] := by
  have hlen : (pyStrip rec1200.content).length = 1200 := trimLen_rec1200
  unfold chunkGroups
  rw [List.foldl_cons, List.foldl_nil]
  unfold groupStep
  dsimp only
  rw [hlen]
  simp

/-- Folding the join step only ever appends, so the accumulator length
never decreases. -/
theorem foldl_pyJoin_length_le (sep : String) (rest : List String) (acc : String) :
    acc.length ≤ (rest.foldl (fun a t => a ++ sep ++ t) acc).length := by
  induction rest generalizing acc with
  | nil => simp
  | cons t rest ih =>
    refine le_trans ?_ (ih (acc ++ sep ++ t))
    rw [String.length_append, String.length_append]
    omega

/-- The join of a non-empty list is at least as long as its first
element. -/
theorem pyJoin_head_length_le (sep s : String) (rest : List String) :
    s.length ≤ (pyJoin sep (s :: rest)).length :=
  foldl_pyJoin_length_le sep rest s

/-- One loop iteration preserves the coupling between the chunker state
and the ghost group state. -/
theorem chunkStep_rel (target : Nat) (cs : ChunkState) (gs : GroupState)
    (h : StateRel cs gs) (item : Record) :
    StateRel (chunkStep target cs item) (groupStep target gs item) := by
  obtain ⟨h1, h2, h3⟩ := h
  unfold chunkStep groupStep
  by_cases hk : (pyStrip item.content).length < 20
  · simp only [if_pos hk]
    exact ⟨h1, h2, h3⟩
  · simp only [if_neg hk, h2, h3]
    by_cases hc : target < gs.current_length + (pyStrip item.content).length ∧ gs.current ≠ []
    · simp only [if_pos hc]
      exact ⟨by simp [h1, h2], rfl, rfl⟩
    · simp only [if_neg hc]
      exact ⟨h1, by simp [h2], by simp [h3]⟩

/-- One iteration of groupStep preserves the fold invariant. -/
theorem groupStep_inv {target : Nat} {processed : List Record} {st : GroupState}
    (h : GroupInv target processed st) (item : Record) :
    GroupInv target (processed ++ [item]) (groupStep target st item) := by
  obtain ⟨hjoin, hlen, hsmall, hkept, hne, hgsmall, hgkept⟩ := h
  unfold groupStep
  by_cases hk : (pyStrip item.content).length < 20
  · have hkb : keptB item = false := by
      simp [keptB, trimLen]
      omega
    have hfilter : (processed ++ [item]).filter keptB = processed.filter keptB := by
      simp [List.filter_append, hkb]
    simp only [if_pos hk]
    exact ⟨by rw [hfilter]; exact hjoin, hlen, hsmall, hkept, hne, hgsmall, hgkept⟩
  · have hk20 : 20 ≤ trimLen item := by
      simp only [trimLen]
      omega
    have hkb : keptB item = true := by
      simp [keptB, hk20]
    have hfilter : (processed ++ [item]).filter keptB = processed.filter keptB ++ [item] := by
      simp [List.filter_append, hkb]
    simp only [if_neg hk]
    by_cases hc : target < st.current_length + (pyStrip item.content).length ∧ st.current ≠ []
    · simp only [if_pos hc]
      refine ⟨?_, ?_, ?_, ?_, ?_, ?_, ?_⟩
      · rw [hfilter, ← hjoin]
        simp [List.flatten_append]
      · simp [sumTrim, trimLen]
      · intro h2
        simp at h2
      · intro r hr
        rw [List.mem_singleton] at hr
        subst hr
        exact hk20
      · intro g hg
        rcases List.mem_append.mp hg with hg1 | hg2
        · exact hne g hg1
        · rw [List.mem_singleton] at hg2
          subst hg2
          exact hc.2
      · intro g hg
        rcases List.mem_append.mp hg with hg1 | hg2
        · exact hgsmall g hg1
        · rw [List.mem_singleton] at hg2
          subst hg2
          by_cases h2 : 2 ≤ st.current.length
          · exact Or.inr (hlen ▸ hsmall h2)
          · have hne2 : st.current.length ≠ 0 := by
              simpa [List.length_eq_zero] using hc.2
            exact Or.inl (by omega)
      · intro g hg
        rcases List.mem_append.mp hg with hg1 | hg2
        · exact hgkept g hg1
        · rw [List.mem_singleton] at hg2
          subst hg2
          exact hkept
    · simp only [if_neg hc]
      refine ⟨?_, ?_, ?_, ?_, hne, hgsmall, hgkept⟩
      · rw [hfilter, ← hjoin]
        simp
      · simp [sumTrim, trimLen, hlen]
      · intro h2
        show st.current_length + (pyStrip item.content).length ≤ target
        by_cases hcur : st.current = []
        · have h2b : 2 ≤ (st.current ++ [item]).length := h2
          rw [hcur] at h2b
          simp at h2b
        · have hnlt : ¬ target < st.current_length + (pyStrip item.content).length :=
            fun hlt => hc ⟨hlt, hcur⟩
          omega
      · intro r hr
        rcases List.mem_append.mp hr with hr1 | hr2
        · exact hkept r hr1
        · rw [List.mem_singleton] at hr2
          subst hr2
          exact hk20

/-- The fold of groupStep preserves the invariant along any suffix of
the input. -/
theorem foldl_groupStep_inv (target : Nat) (l : List Record) :
    ∀ (processed : List Record) (st : GroupState), GroupInv target processed st →
      GroupInv target (processed ++ l) (l.foldl (groupStep target) st) := by
  induction l with
  | nil =>
    intro processed st h
    simpa using h
  | cons a l ih =>
    intro processed st h
    have h2 := groupStep_inv h a
    have h3 := ih (processed ++ [a]) (groupStep target st a) h2
    simpa [List.append_assoc] using h3

/-- The groups produced by the chunker: their flattening is exactly the
kept records of the input in order; each group is non-empty, within the
target unless it is a singleton, and made of kept records only. -/
theorem chunkGroups_spec (raw : List Record) (target : Nat) :
    (chunkGroups raw target).flatten = raw.filter keptB ∧
    ∀ g ∈ chunkGroups raw target,
      g ≠ [] ∧ (g.length = 1 ∨ sumTrim g ≤ target) ∧ ∀ r ∈ g, 20 ≤ trimLen r := by
  have hinit : GroupInv target [] ⟨[], [], 0⟩ :=
    ⟨by simp, by simp [sumTrim], by simp, by simp, by simp, by simp, by simp⟩
  have hinv := foldl_groupStep_inv target raw [] ⟨[], [], 0⟩ hinit
  obtain ⟨hjoin, hlen, hsmall, hkept, hne, hgsmall, hgkept⟩ := hinv
  rw [List.nil_append] at hjoin
  unfold chunkGroups
  by_cases hc : (raw.foldl (groupStep target) ⟨[], [], 0⟩).current = []
  · rw [if_neg (by simpa using hc)]
    constructor
    · rw [← hjoin, hc]
      simp
    · intro g hg
      exact ⟨hne g hg, hgsmall g hg, hgkept g hg⟩
  · rw [if_pos hc]
    constructor
    · rw [← hjoin]
      simp [List.flatten_append]
    · intro g hg
      rcases List.mem_append.mp hg with hg1 | hg2
      · exact ⟨hne g hg1, hgsmall g hg1, hgkept g hg1⟩
      · rw [List.mem_singleton] at hg2
        subst hg2
        refine ⟨hc, ?_, hkept⟩
        by_cases h2 : 2 ≤ (raw.foldl (groupStep target) ⟨[], [], 0⟩).current.length
        · exact Or.inr (hlen ▸ hsmall h2)
        · have hne2 : (raw.foldl (groupStep target) ⟨[], [], 0⟩).current.length ≠ 0 := by
            simpa [List.length_eq_zero] using hc
          exact Or.inl (by omega)

/-- The fold of chunkStep stays coupled to the fold of groupStep. -/
theorem foldl_chunkStep_rel (target : Nat) (l : List Record) :
    ∀ (cs : ChunkState) (gs : GroupState), StateRel cs gs →
      StateRel (l.foldl (chunkStep target) cs) (l.foldl (groupStep target) gs) := by
  induction l with
  | nil =>
    intro cs gs h
    simpa using h
  | cons a l ih =>
    intro cs gs h
    exact ih (chunkStep target cs a) (groupStep target gs a) (chunkStep_rel target cs gs h a)

/-- The chunker output is exactly mkChunk mapped over the record
groups. -/
theorem semantic_chunking_eq_map (raw : List Record) (target : Nat) :
    semantic_chunking raw target = (chunkGroups raw target).map mkChunk := by
  have hrel := foldl_chunkStep_rel target raw ⟨[], [], 0⟩ ⟨[], [], 0⟩ ⟨by simp, rfl, rfl⟩
  obtain ⟨h1, h2, h3⟩ := hrel
  unfold semantic_chunking chunkGroups
  by_cases hc : (raw.foldl (groupStep target) ⟨[], [], 0⟩).current = []
  · rw [if_neg (by simp [h2, hc]), if_neg (by simpa using hc)]
    exact h1
  · rw [if_pos (show _ ≠ [] by simp [h2, hc]), if_pos (by simpa using hc)]
    simp [h1, h2]

/-- C1: every record whose trimmed content length is at least 20
contributes to exactly one output chunk of semantic_chunking, the
records appear across the chunks in their original relative order, and
every record with trimmed length below 20 contributes to no chunk: the
output chunks are mkChunk over contiguous groups whose flattening is
exactly the kept records of the input in order. -/
theorem c1_partition_in_order (raw : List Record) (target : Nat) :
    semantic_chunking raw target = (chunkGroups raw target).map mkChunk ∧
    (chunkGroups raw target).flatten = raw.filter keptB :=
  ⟨semantic_chunking_eq_map raw target, (chunkGroups_spec raw target).1⟩

/-- C2: each output chunk, except possibly one formed from a single
record whose own trimmed length exceeds target_chars, has a pre-join
accumulated length (the sum of the trimmed lengths of its constituent
records) of at most target_chars. -/
theorem c2_accumulated_length_bound (raw : List Record) (target : Nat) (g : List Record)
    (hg : g ∈ chunkGroups raw target) :
    sumTrim g ≤ target ∨ ∃ r, g = [r] ∧ target < trimLen r := by
  obtain ⟨hne, hsmall, hkept⟩ := (chunkGroups_spec raw target).2 g hg
  rcases hsmall with h1 | h2
  · obtain ⟨a, ha⟩ := List.length_eq_one.mp h1
    by_cases ht : target < trimLen a
    · exact Or.inr ⟨a, ha, ht⟩
    · refine Or.inl ?_
      rw [ha]
      simp only [sumTrim, List.map_cons, List.map_nil, List.sum_cons, List.sum_nil]
      omega
  · exact Or.inl h2

/-- C2 witness: the two-record input with trimmed lengths 30 and 40 and
target 1000 produces the single group of both records, which is within
the target. -/
theorem c2_witness :
    sumTrim [recA, recB] ≤ 1000 ∨ ∃ r, [recA, recB] = [r] ∧ 1000 < trimLen r :=
  c2_accumulated_length_bound [recA, recB] 1000 [recA, recB] (by decide)

/-- C3 counterexample: the chunker is not parameterized by the document
name; whatever name the caller would choose, for example other.pdf, the
produced chunk does not carry it. -/
theorem c3_counterexample :
    ¬ ∀ d : String, ∀ c ∈ semantic_chunking [recA] 1000, c.doc_name = d := by
  intro h
  have h2 : mkChunk [recA] ∈ semantic_chunking [recA] 1000 := by decide
  have h3 := h "other.pdf" (mkChunk [recA]) h2
  exact absurd h3 (by decide)

/-- C3 amended: every output chunk of semantic_chunking has doc_name
equal to the string literal support.pdf hardcoded in the function body
(src/chunk_and_index.py lines 41 and 56); the chunker takes no document
name from its caller. -/
theorem c3_doc_name_hardcoded (raw : List Record) (target : Nat) (c : Chunk)
    (hc : c ∈ semantic_chunking raw target) : c.doc_name = "support.pdf" := by
  rw [semantic_chunking_eq_map] at hc
  obtain ⟨g, hg, hgc⟩ := List.mem_map.mp hc
  rw [← hgc]
  rfl

/-- C3 witness: the chunk produced from the single-record input has
doc_name support.pdf. -/
theorem c3_witness : (mkChunk [recA]).doc_name = "support.pdf" :=
  c3_doc_name_hardcoded [recA] 1000 (mkChunk [recA]) (by decide)

/-- C4: a record for which the running accumulated length plus its own
trimmed length equals target_chars exactly is merged into the current
chunk rather than starting a new one, and an iteration closes a chunk
if and only if the sum strictly exceeds target_chars and the
accumulator is non-empty. -/
theorem c4_boundary_merge (target : Nat) (st : ChunkState) (item : Record)
    (hkeep : 20 ≤ trimLen item)
    (heq : st.current_length + trimLen item = target) :
    chunkStep target st item = ⟨st.chunks, st.current_chunk ++ [item], target⟩ ∧
    ∀ (st2 : ChunkState) (it2 : Record),
      (chunkStep target st2 it2).chunks.length ≠ st2.chunks.length ↔
        (20 ≤ trimLen it2 ∧ target < st2.current_length + trimLen it2 ∧
          st2.current_chunk ≠ []) := by
  constructor
  · simp only [trimLen] at hkeep heq
    simp only [chunkStep]
    rw [if_neg (by omega)]
    rw [if_neg (fun hcon => absurd hcon.1 (by omega))]
    rw [heq]
  · intro st2 it2
    by_cases hk : (pyStrip it2.content).length < 20
    · simp only [chunkStep, if_pos hk]
      constructor
      · intro hne
        exact absurd rfl hne
      · intro hcon
        have := hcon.1
        simp only [trimLen] at this
        omega
    · by_cases hc : target < st2.current_length + (pyStrip it2.content).length ∧
          st2.current_chunk ≠ []
      · simp only [chunkStep, if_neg hk, if_pos hc]
        constructor
        · intro _
          exact ⟨by simp only [trimLen]; omega, by simpa [trimLen] using hc.1, hc.2⟩
        · intro _
          simp
      · simp only [chunkStep, if_neg hk, if_neg hc]
        constructor
        · intro hne
          exact absurd rfl hne
        · intro hcon
          exact absurd ⟨by simpa [trimLen] using hcon.2.1, hcon.2.2⟩ hc

/-- C4 witness: with target 70, an accumulator holding the 30-character
record and a 40-character incoming record, the sum is exactly 70 and
the record is merged, not split off. -/
theorem c4_witness :
    chunkStep 70 ⟨[], [recA], 30⟩ recB = ⟨[], [recA, recB], 70⟩ :=
  (c4_boundary_merge 70 ⟨[], [recA], 30⟩ recB (by decide) (by decide)).1

/-- C5: a record whose own trimmed length exceeds target_chars is
always alone in its group, and the concrete single record of trimmed
length 1200 with target 1000 yields exactly one chunk holding that
record alone, never split. -/
theorem c5_oversize_record_alone (raw : List Record) (target : Nat) :
    (∀ g ∈ chunkGroups raw target, ∀ r ∈ g, target < trimLen r → g = [r]) ∧
    semantic_chunking [rec1200] 1000 =
      [⟨String.mk (List.replicate 1200 'a'), 3, "paragraph", "support.pdf"⟩] := by
  constructor
  · intro g hg r hr ht
    obtain ⟨hne, hsmall, hkept⟩ := (chunkGroups_spec raw target).2 g hg
    rcases hsmall with h1 | h2
    · obtain ⟨a, ha⟩ := List.length_eq_one.mp h1
      rw [ha] at hr
      rw [List.mem_singleton] at hr
      rw [ha, hr]
    · exfalso
      have hmem : trimLen r ∈ g.map trimLen := List.mem_map_of_mem trimLen hr
      have hle : trimLen r ≤ (g.map trimLen).sum :=
        List.single_le_sum (fun x _ => Nat.zero_le x) _ hmem
      simp only [sumTrim] at h2
      omega
  · rw [semantic_chunking_eq_map, chunkGroups_rec1200]
    rfl

/-- C5 witness: the oversize record is alone in its group for the
concrete single-record input. -/
theorem c5_witness : ([rec1200] : List Record) = [rec1200] :=
  (c5_oversize_record_alone [rec1200] 1000).1 [rec1200]
    (by rw [chunkGroups_rec1200]; exact List.mem_singleton.mpr rfl)
    rec1200 (List.mem_singleton.mpr rfl)
    (by rw [trimLen_rec1200]; omega)

/-- C6: semantic_chunking is total by construction over well-formed
records (it is a fold of a total step function, so it returns a value
for every input without failure), and on the empty input it returns the
empty output. -/
theorem c6_empty_input (target : Nat) : semantic_chunking [] target = [] := rfl

/-- Folding list append from any accumulator is the accumulator
followed by the flattened mapped lists. -/
theorem foldl_append_eq_flatten (pages : List Page) :
    ∀ acc : List Record,
      pages.foldl (fun content page => content ++ pageRecords page) acc
        = acc ++ (pages.map pageRecords).flatten := by
  induction pages with
  | nil =>
    intro acc
    simp
  | cons p ps ih =>
    intro acc
    rw [List.foldl_cons, ih]
    simp

/-- The normalizer output is the concatenation of the per-page record
lists in page order. -/
theorem analyze_document_eq_flatten (pages : List Page) :
    analyze_document pages = (pages.map pageRecords).flatten := by
  have h := foldl_append_eq_flatten pages []
  simpa [analyze_document] using h

/-- A list of records none of which has type page_text contains zero
page_text records. -/
theorem countP_pageText_zero (l : List Record) (hl : ∀ r ∈ l, r.rtype ≠ "page_text") :
    l.countP (fun r => decide (r.rtype = "page_text")) = 0 := by
  rw [List.countP_eq_zero]
  intro a ha
  simp [hl a ha]

/-- The paragraph or line component of a page yields no page_text
record. -/
theorem countP_pageText_first (page : Page) :
    ((if page.paragraphs ≠ [] then
        page.paragraphs.map (fun para => (⟨"paragraph", para, page.page_number⟩ : Record))
      else if page.lines ≠ [] then
        page.lines.map (fun line => (⟨"line", line, page.page_number⟩ : Record))
      else []).countP (fun r => decide (r.rtype = "page_text"))) = 0 := by
  apply countP_pageText_zero
  intro r hr
  by_cases hp : page.paragraphs ≠ []
  · rw [if_pos hp] at hr
    obtain ⟨s, hs, hsr⟩ := List.mem_map.mp hr
    rw [← hsr]
    show ("paragraph" : String) ≠ "page_text"
    decide
  · rw [if_neg hp] at hr
    by_cases hl : page.lines ≠ []
    · rw [if_pos hl] at hr
      obtain ⟨s, hs, hsr⟩ := List.mem_map.mp hr
      rw [← hsr]
      show ("line" : String) ≠ "page_text"
      decide
    · rw [if_neg hl] at hr
      simp at hr

/-- The table or word component of a page yields exactly one page_text
record when the page has no tables and a non-empty word list, and none
otherwise. -/
theorem countP_pageText_second (page : Page) :
    ((if page.tables ≠ [] then
        page.tables.map (fun table => (⟨"table", tableContent table, page.page_number⟩ : Record))
      else if page.words ≠ [] then
        [(⟨"page_text", pyJoin " " page.words, page.page_number⟩ : Record)]
      else []).countP (fun r => decide (r.rtype = "page_text")))
      = if page.tables = [] ∧ page.words ≠ [] then 1 else 0 := by
  by_cases ht : page.tables = []
  · by_cases hw : page.words = []
    · rw [if_neg (by simp [ht]), if_neg (by simp [hw]), if_neg (by simp [hw])]
      simp
    · rw [if_neg (by simp [ht]), if_pos hw, if_pos ⟨ht, hw⟩]
      simp
  · rw [if_pos ht, if_neg (fun hcon => ht hcon.1)]
    apply countP_pageText_zero
    intro r hr
    obtain ⟨s, hs, hsr⟩ := List.mem_map.mp hr
    rw [← hsr]
    show ("table" : String) ≠ "page_text"
    decide

/-- C7 counterexample: a page that has paragraphs and words but no
tables yields both a paragraph record and a page_text record, so
page-level word concatenation is not restricted to pages with no
paragraphs, no lines and no tables. -/
theorem c7_counterexample :
    pageBoth.paragraphs ≠ [] ∧ pageBoth.tables = [] ∧
    (pageRecords pageBoth).map Record.rtype = ["paragraph", "page_text"] :=
  ⟨by decide, rfl, by decide⟩

/-- C7 amended: the normalizer flattens the per-page record lists in
order, and a page yields exactly one page_text record precisely when it
has no tables and a non-empty word list, independent of its paragraphs
and lines; pages with tables or without words yield none. -/
theorem c7_page_text_when_no_tables :
    (∀ pages : List Page, analyze_document pages = (pages.map pageRecords).flatten) ∧
    ∀ page : Page,
      (pageRecords page).countP (fun r => decide (r.rtype = "page_text"))
        = if page.tables = [] ∧ page.words ≠ [] then 1 else 0 := by
  refine ⟨analyze_document_eq_flatten, ?_⟩
  intro page
  unfold pageRecords
  rw [List.countP_append, countP_pageText_first, countP_pageText_second]
  omega

/-- C8: create_simple_index reports success in every case: on the ok
path of the external create-or-update call it returns True, and when
the call raises any exception the exception is swallowed and it still
returns True. -/
theorem c8_create_index_always_true (call_outcome : Except String Unit) :
    create_simple_index call_outcome = true := by
  cases call_outcome <;> rfl

/-- C9: the JSON array written by the extraction stage holds exactly
the first min(N, 500) extracted records in order; records beyond the
500th are dropped. -/
theorem c9_truncation_to_500 (parsed : List Record) :
    (ingest_file_written parsed).length = min 500 parsed.length ∧
    ∀ (i : Nat) (h1 : i < (ingest_file_written parsed).length) (h2 : i < parsed.length),
      (ingest_file_written parsed).get ⟨i, h1⟩ = parsed.get ⟨i, h2⟩ := by
  refine ⟨List.length_take 500 parsed, ?_⟩
  intro i h1 h2
  simp [ingest_file_written, List.get_take]

/-- C9 witness: on a two-record input nothing is dropped and the first
written record is the first extracted record. -/
theorem c9_witness :
    (ingest_file_written [recA, recB]).get ⟨0, by decide⟩ = [recA, recB].get ⟨0, by decide⟩ :=
  (c9_truncation_to_500 [recA, recB]).2 0 (by decide) (by decide)

/-- C10: every output chunk comes from a non-empty group of kept
records, its content is the ". "-join of the original untrimmed
contents of those records, and the content has length at least 20. -/
theorem c10_content_is_untrimmed_join (raw : List Record) (target : Nat) (c : Chunk)
    (hc : c ∈ semantic_chunking raw target) :
    ∃ g, g ∈ chunkGroups raw target ∧ g ≠ [] ∧
      c.content = pyJoin ". " (g.map Record.content) ∧
      (∀ r ∈ g, 20 ≤ trimLen r) ∧ 20 ≤ c.content.length := by
  rw [semantic_chunking_eq_map] at hc
  obtain ⟨g, hg, hgc⟩ := List.mem_map.mp hc
  obtain ⟨hne, hsmall, hkept⟩ := (chunkGroups_spec raw target).2 g hg
  subst hgc
  refine ⟨g, hg, hne, rfl, hkept, ?_⟩
  obtain ⟨r, rest, hr⟩ := List.exists_cons_of_ne_nil hne
  subst hr
  show 20 ≤ (pyJoin ". " ((r :: rest).map Record.content)).length
  have h1 : r.content.length ≤ (pyJoin ". " (r.content :: rest.map Record.content)).length :=
    pyJoin_head_length_le ". " r.content (rest.map Record.content)
  have h2 : 20 ≤ trimLen r := hkept r (List.mem_cons_self r rest)
  have h3 : trimLen r ≤ r.content.length := pyStrip_length_le r.content
  rw [List.map_cons]
  omega

/-- C10 witness: the chunk built from the single 30-character record is
in the output, is built from that record, and its content is at least
20 characters long. -/
theorem c10_witness :
    ∃ g, g ∈ chunkGroups [recA] 1000 ∧ g ≠ [] ∧
      (mkChunk [recA]).content = pyJoin ". " (g.map Record.content) ∧
      (∀ r ∈ g, 20 ≤ trimLen r) ∧ 20 ≤ (mkChunk [recA]).content.length :=
  c10_content_is_untrimmed_join [recA] 1000 (mkChunk [recA]) (by decide)

end RagPipeline
